import Mathlib

/-!
# Verification of the iterator-utils adapter library

A shallow embedding of the traversal state machines of
`src/iterator/iterators.h`.  An underlying collection is modelled as a
`List`, and a C++ iterator into a collection is modelled as the suffix of
the list it points at: `begin()` is the whole list, `end()` is `[]`,
`operator++` is `List.tail`, `operator*` is the head, and equality of two
iterators into the same collection is equality of the suffixes (two
suffixes of one list are equal exactly when they start at the same
position).  A reverse iterator (`rbegin()`/`rend()`) of a collection `xs`
is modelled as a forward iterator into `xs.reverse`.

Each adapter's cursor below copies the fields of the corresponding C++
iterator class, and each adapter's traversal function unrolls the standard
range-for loop (`it = begin(); while (it != end()) { yield *it; ++it; }`)
over those cursor operations.
-/

namespace IteratorSpec

/-! ## Zip (`ZippedIterator`, `ZippedBase`, `Zipped`)

`ZippedIterator` holds `first_begin_`, `first_end_`, `second_begin_`,
`second_end_` (plus a cached `value_` that is recomputed from the current
elements on construction and on every `++`, so dereferencing yields the
pair of current elements).  In the suffix model the two `end` iterators
are implicit (`[]`), leaving the two `begin` suffixes. -/

structure ZipCursor (α β : Type) where
  first : List α
  second : List β
deriving DecidableEq, Repr

/-- `ZippedIterator::IsAtEnd`: `first_begin_ == first_end_ || second_begin_ == second_end_`. -/
def zipIsAtEnd (c : ZipCursor α β) : Bool :=
  c.first.isEmpty || c.second.isEmpty

/-- `ZippedIterator::operator++`: advance both sub-iterators. -/
def zipNext (c : ZipCursor α β) : ZipCursor α β :=
  ⟨c.first.tail, c.second.tail⟩

/-- `ZippedIterator::operator*` (via `SetValue`): the pair of the two
current elements; `none` when a sub-iterator is exhausted (dereferencing
there is undefined behaviour in the C++ code). -/
def zipDeref (c : ZipCursor α β) : Option (α × β) :=
  match c.first, c.second with
  | x :: _, y :: _ => some (x, y)
  | _, _ => none

/-- `ZippedIterator::operator==`: `IsAtEnd() == other.IsAtEnd()`. -/
def zipEqB (c₁ c₂ : ZipCursor α β) : Bool :=
  zipIsAtEnd c₁ == zipIsAtEnd c₂

/-- The range-for loop over a zip cursor: while the cursor is not at end
(`operator!=` against `end()` is exactly `!IsAtEnd()`), yield the
dereferenced pair and advance both sub-iterators. -/
def zipTraverse : ZipCursor α β → List (α × β)
  | ⟨x :: xs, y :: ys⟩ => (x, y) :: zipTraverse ⟨xs, ys⟩
  | ⟨_, _⟩ => []

/-- Traversal of `Zip(S1,S2)` from `begin()` to `end()`
(`ZippedBase::begin` starts both sub-iterators at their begin). -/
def zipForward (xs : List α) (ys : List β) : List (α × β) :=
  zipTraverse ⟨xs, ys⟩

/-- Traversal of `Zip(S1,S2)` from `rbegin()` to `rend()`
(`Zipped::rbegin` pairs `rbegin/rend` of the first source with
`rbegin/rend` of the second source). -/
def zipBackward (xs : List α) (ys : List β) : List (α × β) :=
  zipTraverse ⟨xs.reverse, ys.reverse⟩

/-- `ZippedBase::empty`: `first_.empty() || second_.empty()`. -/
def zipEmptyB (xs : List α) (ys : List β) : Bool :=
  xs.isEmpty || ys.isEmpty

/-- `ZippedBase::size`: `std::min(first_.size(), second_.size())`. -/
def zipSize (xs : List α) (ys : List β) : Nat :=
  Nat.min xs.length ys.length

/-! ## Chain (`ChainedIterator`, `ChainedBase`, `Chained`)

`ChainedIterator` holds `outer_begin_`, `outer_end_`, `inner_begin_`,
`inner_end_` and the two inner-iterator getters.  In the suffix model the
outer iterator is the remaining list of inner collections, the two `end`
iterators are implicit, and the inner iterator is the remaining suffix of
the current inner collection. -/

structure ChainCursor (α : Type) where
  outer : List (List α)
  inner : List α
deriving DecidableEq, Repr

/-- `ChainedIterator::IsAtEnd`: `outer_begin_ == outer_end_`. -/
def chainIsAtEnd (c : ChainCursor α) : Bool :=
  c.outer.isEmpty

/-- `ChainedIterator::InitializeInnerCollection`: if the outer iterator is
not at end, point the inner iterator at the begin of the current inner
collection; otherwise leave it unchanged. -/
def chainInitInner (outer : List (List α)) (inner : List α) : List α :=
  match outer with
  | [] => inner
  | o :: _ => o

/-- `ChainedIterator::SkipEmptyInnerCollections`: while the outer iterator
is not at end and the inner iterator is at the end of its inner
collection, advance the outer iterator (`AdvanceOuterCollection`:
`++outer_begin_` then `InitializeInnerCollection`). -/
def skipEmptyInner : ChainCursor α → ChainCursor α
  | ⟨[], inner⟩ => ⟨[], inner⟩
  | ⟨o :: os, inner⟩ =>
    if inner.isEmpty then skipEmptyInner ⟨os, chainInitInner os inner⟩
    else ⟨o :: os, inner⟩
termination_by c => c.outer.length
decreasing_by simp

/-- The number of iterations the `SkipEmptyInnerCollections` loop performs
(one per `AdvanceOuterCollection` call). -/
def skipEmptyInnerSteps : ChainCursor α → Nat
  | ⟨[], _⟩ => 0
  | ⟨o :: os, inner⟩ =>
    if inner.isEmpty then skipEmptyInnerSteps ⟨os, chainInitInner os inner⟩ + 1
    else 0
termination_by c => c.outer.length
decreasing_by simp

/-- The `ChainedIterator` constructor used by `ChainedBase::begin`:
`InitializeInnerCollection` (from default-constructed inner iterators,
modelled as `[]`) followed by `SkipEmptyInnerCollections`. -/
def chainBeginCursor (xss : List (List α)) : ChainCursor α :=
  skipEmptyInner ⟨xss, chainInitInner xss []⟩

/-- `ChainedIterator::operator++`: `++inner_begin_` then
`SkipEmptyInnerCollections`. -/
def chainNext (c : ChainCursor α) : ChainCursor α :=
  skipEmptyInner ⟨c.outer, c.inner.tail⟩

/-- `ChainedIterator::operator*`: `*inner_begin_` (`none` marks the
undefined dereference of an exhausted inner iterator). -/
def chainDeref (c : ChainCursor α) : Option α :=
  c.inner.head?

/-- `ChainedIterator::operator==`: `IsAtEnd() == other.IsAtEnd()`. -/
def chainEqB (c₁ c₂ : ChainCursor α) : Bool :=
  chainIsAtEnd c₁ == chainIsAtEnd c₂

/-- Bound used by `chainTraverse`'s termination argument: the skip loop
never lengthens the remaining outer sequence. -/
theorem skipEmptyInner_outer_length_le (outer : List (List α)) :
    ∀ inner, (skipEmptyInner ⟨outer, inner⟩).outer.length ≤ outer.length := by
  induction outer with
  | nil => intro inner; simp [skipEmptyInner]
  | cons o os ih =>
    intro inner
    rw [skipEmptyInner]
    by_cases h : inner.isEmpty
    · simp only [h, if_true]
      exact le_trans (ih (chainInitInner os inner)) (Nat.le_succ _)
    · simp [h]

/-- The range-for loop over a chain cursor: while the outer iterator is
not at end (`operator!=` against `end()` is exactly `!IsAtEnd()`), yield
the current inner element and advance (`chainNext`).  The second arm
(outer not at end but inner exhausted) is unreachable from `begin()` and
`operator++`, whose trailing `SkipEmptyInnerCollections` re-establishes a
non-exhausted inner iterator; dereferencing there would be undefined
behaviour, so the model stops. -/
def chainTraverse : ChainCursor α → List α
  | ⟨[], _⟩ => []
  | ⟨_ :: _, []⟩ => []
  | ⟨o :: os, x :: rest⟩ => x :: chainTraverse (chainNext ⟨o :: os, x :: rest⟩)
termination_by c => (c.outer.length, c.inner.length)
decreasing_by
  simp only [chainNext, List.tail_cons]
  cases rest with
  | nil =>
    apply Prod.Lex.left
    rw [skipEmptyInner]
    simp only [List.isEmpty_nil, if_true]
    have h := skipEmptyInner_outer_length_le os (chainInitInner os [])
    simp only [List.length_cons]
    omega
  | cons y r =>
    rw [skipEmptyInner]
    simp only [List.isEmpty_cons, if_false, Bool.false_eq_true]
    apply Prod.Lex.right
    simp

/-- Traversal of `Chain(xss)` from `begin()` to `end()`. -/
def chainTraversal (xss : List (List α)) : List α :=
  chainTraverse (chainBeginCursor xss)

/-- `ChainedBase::IsEmpty`: return `false` at the first non-empty inner
collection, else `true`. -/
def chainIsEmptyB : List (List α) → Bool
  | [] => true
  | xs :: rest => if !xs.isEmpty then false else chainIsEmptyB rest

/-- `ChainedBase::Size`: sum the sizes of the inner collections. -/
def chainSize (xss : List (List α)) : Nat :=
  xss.foldl (fun acc xs => acc + xs.length) 0

/-! ## Join (`JoinedIterator`, `JoinedBase`, `Joined`)

`JoinedIterator` holds `first_`, `first_end_`, `second_`, `second_end_`;
in the suffix model the two `end` iterators are implicit. -/

structure JoinCursor (α : Type) where
  first : List α
  second : List α
deriving DecidableEq, Repr

/-- `JoinedIterator::operator*`: `*first_` while the first sub-iterator is
not exhausted, else `*second_`. -/
def joinDeref (c : JoinCursor α) : Option α :=
  if c.first.isEmpty then c.second.head? else c.first.head?

/-- `JoinedIterator::operator++`: advance `first_` while it is not
exhausted, else advance `second_`. -/
def joinNext (c : JoinCursor α) : JoinCursor α :=
  if c.first.isEmpty then ⟨c.first, c.second.tail⟩ else ⟨c.first.tail, c.second⟩

/-- `JoinedIterator::operator==`: `first_ == other.first_ && second_ ==
other.second_`. -/
def joinEqB [DecidableEq α] (c₁ c₂ : JoinCursor α) : Bool :=
  decide (c₁.first = c₂.first) && decide (c₁.second = c₂.second)

/-- The range-for loop over a join cursor: while the cursor differs from
`end()` (both sub-iterators at their ends, i.e. `⟨[], []⟩`), yield the
dereferenced element and advance. -/
def joinTraverse : JoinCursor α → List α
  | ⟨x :: xs, ys⟩ => x :: joinTraverse ⟨xs, ys⟩
  | ⟨[], y :: ys⟩ => y :: joinTraverse ⟨[], ys⟩
  | ⟨[], []⟩ => []

/-- Traversal of `Join(S1,S2)` from `begin()` to `end()`
(`JoinedBase::begin` starts both sub-iterators at their begins). -/
def joinForward (xs ys : List α) : List α :=
  joinTraverse ⟨xs, ys⟩

/-- Traversal of `Join(S1,S2)` from `rbegin()` to `rend()`
(`Joined::rbegin` puts the reverse iterators of the SECOND source in the
first slot and the reverse iterators of the FIRST source in the second
slot). -/
def joinBackward (xs ys : List α) : List α :=
  joinTraverse ⟨ys.reverse, xs.reverse⟩

/-! ## Filter (`FilterIterator`, `FilteredBase`, `Filtered`) -/

/-- `FilterIterator::SkipFilteredEntries`: while the iterator is not at
end and the current element is filtered out (`IsFiltered` is
`!filter_(*begin_)`), advance. -/
def skipFilteredEntries (p : α → Bool) : List α → List α
  | [] => []
  | x :: rest => if !p x then skipFilteredEntries p rest else x :: rest

/-- Bound used by `filterTraverse`'s termination argument: skipping
filtered entries never lengthens the suffix. -/
theorem skipFilteredEntries_length_le (p : α → Bool) (xs : List α) :
    (skipFilteredEntries p xs).length ≤ xs.length := by
  induction xs with
  | nil => simp [skipFilteredEntries]
  | cons x rest ih =>
    rw [skipFilteredEntries]
    by_cases h : p x
    · simp [h]
    · simp only [h, Bool.not_false, if_true]
      exact le_trans ih (Nat.le_succ _)

/-- The range-for loop over a filter cursor (a suffix on which
`SkipFilteredEntries` has already run: the constructor runs it, and so
does every `operator++`): while not at end, yield the current element,
then advance (`++begin_` followed by `SkipFilteredEntries`). -/
def filterTraverse (p : α → Bool) : List α → List α
  | [] => []
  | x :: rest => x :: filterTraverse p (skipFilteredEntries p rest)
termination_by xs => xs.length
decreasing_by
  calc (skipFilteredEntries p rest).length
      ≤ rest.length := skipFilteredEntries_length_le p rest
    _ < rest.length + 1 := by omega

/-- Traversal of `Filter(S,pred)` from `begin()` to `end()`: the `begin`
cursor is built from the source's begin and immediately skips filtered
entries. -/
def filterTraversal (p : α → Bool) (xs : List α) : List α :=
  filterTraverse p (skipFilteredEntries p xs)

/-- `FilteredBase::IsEmpty`: range-for over the view returns `false` on
the first element, so emptiness is "`begin()` equals `end()`", i.e. the
eagerly-skipped begin cursor is exhausted (no first matching element
exists). -/
def filterIsEmptyB (p : α → Bool) (xs : List α) : Bool :=
  (skipFilteredEntries p xs).isEmpty

/-- `FilteredBase::Size`: count the elements produced by a full
traversal of the view. -/
def filterSize (p : α → Bool) (xs : List α) : Nat :=
  (filterTraversal p xs).length

/-! ## Enumerate (`EnumeratedIterator`, `EnumeratedBase`, `Enumerated`)

`EnumeratedIterator` holds `begin_`, `end_`, an `int` position, the
per-step position delta, and a cached `item_` (recomputed from the
position and the current element on construction and on every `++`, so
dereferencing yields the current (position, value) pair). -/

/-- The range-for loop over an enumerate cursor: while `begin_ != end_`,
yield the (position, value) item and advance (`++begin_; position_ +=
position_delta_; SetItem()`).  Positions are `int` in the source, hence
`Int` here. -/
def enumTraverse (delta : Int) : List α → Int → List (Int × α)
  | [], _ => []
  | x :: rest, pos => (pos, x) :: enumTraverse delta rest (pos + delta)

/-- Traversal of `Enumerate(S)` from `begin()` to `end()`
(`EnumeratedBase::begin`: position `0`, delta `kIncrement = 1`). -/
def enumForward (xs : List α) : List (Int × α) :=
  enumTraverse 1 xs 0

/-- Traversal of `Enumerate(S)` from `rbegin()` to `rend()`
(`Enumerated::rbegin`: the source's reverse iterators, position
`MaxPosition() = size - 1`, delta `kDecrement = -1`). -/
def enumBackward (xs : List α) : List (Int × α) :=
  enumTraverse (-1) xs.reverse ((xs.length : Int) - 1)

/-! ## Reverse (`Reversed`)

`Reversed` only swaps the roles of the traversal entry points of the
wrapped iterable: `begin/end` return the source's `rbegin/rend` and
`rbegin/rend` return the source's `begin/end`.  A view is therefore
modelled by its two traversal sequences, and `Reversed` swaps them. -/

structure View (α : Type) where
  fwd : List α
  bwd : List α
deriving DecidableEq, Repr

/-- A plain bidirectional collection as a view: traversing `begin()` to
`end()` yields its elements in order, `rbegin()` to `rend()` yields them
back-to-front. -/
def collectionView (xs : List α) : View α :=
  ⟨xs, xs.reverse⟩

/-- The `Reversed` adapter: `begin/end` delegate to the source's
`rbegin/rend` and vice versa. -/
def reversedView (v : View α) : View α :=
  ⟨v.bwd, v.fwd⟩

/-! ## Map (`MappedIterator`)

`MappedIterator` holds `begin_`, `end_` and a reference to the mapping
function; it has no field caching a mapped value.  `operator*` is
`return mapping_function_(*begin_)` — the function is invoked at each
dereference, on the current source element, and the result is returned by
value; `operator++` is `++begin_` and calls nothing.  To observe the
invocations, the mapping function is modelled as a state-passing function
`σ → α → σ × β` and the cursor operations thread the state exactly where
the C++ code calls `mapping_function_`. -/

structure MapCursor (α : Type) where
  rest : List α
deriving DecidableEq, Repr

/-- `MappedIterator::operator++`: `++begin_`; the mapping function is not
invoked. -/
def mapAdvance (c : MapCursor α) : MapCursor α :=
  ⟨c.rest.tail⟩

/-- `MappedIterator::operator*`: one invocation of the mapping function on
the current source element, returning its result by value (`none` marks
the undefined dereference of an exhausted iterator). -/
def mapDeref (f : σ → α → σ × β) (s : σ) (c : MapCursor α) : Option (σ × β) :=
  match c.rest with
  | [] => none
  | x :: _ => some (f s x)

/-- An observable cursor operation: a dereference or an advance. -/
inductive MapOp where
  | deref : MapOp
  | advance : MapOp
deriving DecidableEq, Repr

/-- Run a sequence of cursor operations, threading the mapping function's
state and collecting the values the dereferences return. -/
def mapRun (f : σ → α → σ × β) : List MapOp → σ → MapCursor α → σ × List β
  | [], s, _ => (s, [])
  | MapOp.deref :: ops, s, c =>
    match mapDeref f s c with
    | none => mapRun f ops s c
    | some (s₂, b) =>
      let r := mapRun f ops s₂ c
      (r.1, b :: r.2)
  | MapOp.advance :: ops, s, c => mapRun f ops s (mapAdvance c)

/-- A pure mapping function `g` instrumented with an invocation counter:
each call bumps the counter and returns `g` of the argument. -/
def countingMap (g : α → β) : Nat → α → Nat × β :=
  fun n a => (n + 1, g a)

/-! ## Helper lemmas -/

theorem zipTraverse_eq_zip (xs : List α) (ys : List β) :
    zipTraverse ⟨xs, ys⟩ = List.zip xs ys := by
  induction xs generalizing ys with
  | nil => cases ys <;> simp [zipTraverse]
  | cons x xs ih =>
    cases ys with
    | nil => simp [zipTraverse]
    | cons y ys => simpa [zipTraverse] using ih ys

theorem zip_reverse_of_length_eq (xs : List α) (ys : List β)
    (h : xs.length = ys.length) :
    List.zip xs.reverse ys.reverse = (List.zip xs ys).reverse := by
  induction xs generalizing ys with
  | nil =>
    cases ys with
    | nil => rfl
    | cons y ys => simp at h
  | cons x xs ih =>
    cases ys with
    | nil => simp at h
    | cons y ys =>
      have hlen : xs.length = ys.length := by simpa using h
      have hrev : xs.reverse.length = ys.reverse.length := by simpa using hlen
      simp only [List.reverse_cons]
      rw [List.zip_append hrev, ih ys hlen]
      simp

theorem chainTraverse_skip_append (o : List α) (os : List (List α)) :
    ∀ inner, chainTraverse (skipEmptyInner ⟨o :: os, inner⟩) =
      inner ++ chainTraverse (skipEmptyInner ⟨o :: os, []⟩) := by
  intro inner
  induction inner with
  | nil => simp
  | cons x rest ih =>
    rw [skipEmptyInner]
    simp only [List.isEmpty_cons, Bool.false_eq_true, if_false]
    rw [chainTraverse]
    simp only [chainNext, List.tail_cons, List.cons_append, ih]

theorem chainBegin_traverse_flatten (xss : List (List α)) :
    chainTraverse (chainBeginCursor xss) = xss.flatten := by
  induction xss with
  | nil => simp [chainBeginCursor, chainInitInner, skipEmptyInner, chainTraverse]
  | cons o os ih =>
    rw [chainBeginCursor] at ih ⊢
    cases o with
    | nil =>
      rw [chainInitInner, skipEmptyInner]
      simp only [List.isEmpty_nil, if_true]
      simpa using ih
    | cons x r =>
      rw [chainInitInner]
      rw [chainTraverse_skip_append (x :: r) os (x :: r)]
      rw [skipEmptyInner]
      simp only [List.isEmpty_nil, if_true]
      rw [ih]
      simp [List.flatten_cons]

theorem chainIsEmptyB_iff (xss : List (List α)) :
    chainIsEmptyB xss = true ↔ ∀ xs ∈ xss, xs = [] := by
  induction xss with
  | nil => simp [chainIsEmptyB]
  | cons o os ih =>
    rw [chainIsEmptyB]
    by_cases h : o.isEmpty
    · have ho : o = [] := List.isEmpty_iff.mp h
      simp [h, ho, ih]
    · have ho : o ≠ [] := by simpa [List.isEmpty_iff] using h
      simp [h, ho]

theorem chain_foldl_length (xss : List (List α)) :
    ∀ acc : Nat, xss.foldl (fun a l => a + l.length) acc =
      acc + (xss.map List.length).sum := by
  induction xss with
  | nil => simp
  | cons o os ih =>
    intro acc
    simp only [List.foldl_cons, List.map_cons, List.sum_cons, ih (acc + o.length)]
    omega

theorem skipEmptyInner_steps_outer (outer : List (List α)) :
    ∀ inner, skipEmptyInnerSteps ⟨outer, inner⟩ +
      (skipEmptyInner ⟨outer, inner⟩).outer.length = outer.length := by
  induction outer with
  | nil => intro inner; simp [skipEmptyInnerSteps, skipEmptyInner]
  | cons o os ih =>
    intro inner
    rw [skipEmptyInnerSteps, skipEmptyInner]
    by_cases h : inner.isEmpty
    · simp only [h, if_true]
      have := ih (chainInitInner os inner)
      simp only [List.length_cons]
      omega
    · simp [h]

theorem skipEmptyInner_exit (outer : List (List α)) :
    ∀ inner, chainIsAtEnd (skipEmptyInner ⟨outer, inner⟩) = true ∨
      (skipEmptyInner ⟨outer, inner⟩).inner ≠ [] := by
  induction outer with
  | nil => intro inner; left; simp [skipEmptyInner, chainIsAtEnd]
  | cons o os ih =>
    intro inner
    rw [skipEmptyInner]
    by_cases h : inner.isEmpty
    · simp only [h, if_true]
      exact ih (chainInitInner os inner)
    · rw [if_neg (by simp [h])]
      right
      simpa [List.isEmpty_iff] using h

theorem joinTraverse_nil_left (ys : List α) : joinTraverse ⟨[], ys⟩ = ys := by
  induction ys with
  | nil => simp [joinTraverse]
  | cons y ys ih => simpa [joinTraverse] using ih

theorem joinTraverse_append (xs ys : List α) : joinTraverse ⟨xs, ys⟩ = xs ++ ys := by
  induction xs with
  | nil => simp [joinTraverse_nil_left]
  | cons x rest ih => simpa [joinTraverse] using ih

theorem skipFilteredEntries_head (p : α → Bool) (xs : List α) :
    Option.all p (skipFilteredEntries p xs).head? = true := by
  induction xs with
  | nil => rfl
  | cons x rest ih =>
    rw [skipFilteredEntries]
    by_cases h : p x
    · simp [h]
    · simpa [h] using ih

theorem filterTraversal_eq_filter (p : α → Bool) (xs : List α) :
    filterTraversal p xs = xs.filter p := by
  unfold filterTraversal
  induction xs with
  | nil => simp [skipFilteredEntries, filterTraverse]
  | cons x rest ih =>
    rw [skipFilteredEntries]
    by_cases h : p x
    · rw [if_neg (by simp [h])]
      rw [filterTraverse]
      rw [ih, List.filter_cons_of_pos h]
    · rw [if_pos (by simp [h])]
      rw [ih, List.filter_cons_of_neg (by simp [h])]

theorem filterIsEmptyB_iff (p : α → Bool) (xs : List α) :
    filterIsEmptyB p xs = true ↔ ∀ x ∈ xs, p x = false := by
  unfold filterIsEmptyB
  induction xs with
  | nil => simp [skipFilteredEntries]
  | cons x rest ih =>
    rw [skipFilteredEntries]
    by_cases h : p x
    · simp [h]
    · simpa [h] using ih

theorem enumTraverse_map_snd (d : Int) (xs : List α) :
    ∀ p, (enumTraverse d xs p).map Prod.snd = xs := by
  induction xs with
  | nil => intro p; rfl
  | cons x rest ih => intro p; simp [enumTraverse, ih]

theorem enumTraverse_one_map_fst (xs : List α) :
    ∀ p : Int, (enumTraverse 1 xs p).map Prod.fst =
      (List.range xs.length).map (fun k : Nat => p + (k : Int)) := by
  induction xs with
  | nil => intro p; simp [enumTraverse]
  | cons x rest ih =>
    intro p
    rw [show enumTraverse 1 (x :: rest) p = (p, x) :: enumTraverse 1 rest (p + 1) from rfl]
    rw [List.map_cons, ih (p + 1), List.length_cons, List.range_succ_eq_map,
      List.map_cons, List.map_map]
    refine List.cons_eq_cons.mpr ⟨by norm_num, ?_⟩
    refine List.map_congr_left ?_
    intro k _
    simp only [Function.comp_apply, Nat.succ_eq_add_one]
    push_cast
    ring

theorem enumTraverse_one_append (as bs : List α) :
    ∀ p : Int, enumTraverse 1 (as ++ bs) p =
      enumTraverse 1 as p ++ enumTraverse 1 bs (p + (as.length : Int)) := by
  induction as with
  | nil => intro p; simp [enumTraverse]
  | cons x rest ih =>
    intro p
    have h : p + ((rest.length + 1 : Nat) : Int) = p + 1 + (rest.length : Int) := by
      push_cast; ring
    rw [List.cons_append]
    rw [show enumTraverse 1 (x :: (rest ++ bs)) p =
      (p, x) :: enumTraverse 1 (rest ++ bs) (p + 1) from rfl]
    rw [show enumTraverse 1 (x :: rest) p =
      (p, x) :: enumTraverse 1 rest (p + 1) from rfl]
    rw [ih (p + 1), List.length_cons, h, List.cons_append]

theorem enumTraverse_neg_one_reverse (xs : List α) :
    ∀ p : Int, (enumTraverse (-1) xs p).reverse =
      enumTraverse 1 xs.reverse (p - (xs.length : Int) + 1) := by
  induction xs with
  | nil => intro p; simp [enumTraverse]
  | cons x rest ih =>
    intro p
    rw [show enumTraverse (-1) (x :: rest) p =
      (p, x) :: enumTraverse (-1) rest (p + -1) from rfl]
    rw [List.reverse_cons, List.reverse_cons, ih (p + -1),
      enumTraverse_one_append rest.reverse [x], List.length_cons]
    have h1 : p + -1 - (rest.length : Int) + 1 =
        p - ((rest.length + 1 : Nat) : Int) + 1 := by push_cast; ring
    have h2 : p - ((rest.length + 1 : Nat) : Int) + 1 + (rest.reverse.length : Int) = p := by
      rw [List.length_reverse]
      push_cast
      ring
    rw [h1, h2]
    rfl

/-! ## Claim theorems -/

/-- C1 counterexample: for the bidirectional sources `[1, 2]` and `[10]`
(different lengths), traversing `Zip` from `rbegin()` to `rend()` does NOT
visit the same pairs as the forward traversal in the opposite order: the
forward traversal yields `[(1, 10)]` while the reverse traversal yields
`[(2, 10)]` (it zips the reversed sources, re-pairing the elements from
the tails). -/
theorem zip_reverse_traversal_counterexample :
    ¬ ((zipBackward [1, 2] [10]).reverse = zipForward [1, 2] [10]) := by
  unfold zipBackward zipForward
  rw [zipTraverse_eq_zip, zipTraverse_eq_zip]
  decide

/-- C1 (amended): for bidirectional sources of EQUAL size, traversing
`Zip(S1,S2)` from `rbegin()` to `rend()` visits exactly the same pairs as
traversing it from `begin()` to `end()`, in the opposite order.  (For
sources of different sizes the reverse traversal pairs each element with a
different partner, as the counterexample shows.) -/
theorem zip_reverse_traversal_mirror (xs : List α) (ys : List β)
    (h : xs.length = ys.length) :
    (zipBackward xs ys).reverse = zipForward xs ys := by
  unfold zipBackward zipForward
  rw [zipTraverse_eq_zip, zipTraverse_eq_zip, zip_reverse_of_length_eq xs ys h,
    List.reverse_reverse]

/-- C1 witness: the amended theorem applied to the equal-length sources
`[1, 2]` and `[5, 6]`. -/
theorem zip_reverse_traversal_mirror_witness :
    ([1, 2] : List Nat).length = ([5, 6] : List Nat).length ∧
      (zipBackward [1, 2] [5, 6]).reverse = zipForward [1, 2] [5, 6] :=
  ⟨by decide, zip_reverse_traversal_mirror [1, 2] [5, 6] (by decide)⟩

/-- C2 counterexample: `Chain` (and `Zip`) cursor equality is NOT "both at
end": over the outer sequence `[[1, 2]]`, the begin cursor and its
successor denote different positions and neither is at end, yet
`operator==` reports them equal (it only compares the two at-end
statuses).  The same happens for two distinct non-end `Zip` cursors. -/
theorem cursor_equality_counterexample :
    chainEqB (⟨[[1, 2]], [1, 2]⟩ : ChainCursor Nat) ⟨[[1, 2]], [2]⟩ = true ∧
      chainIsAtEnd (⟨[[1, 2]], [1, 2]⟩ : ChainCursor Nat) = false ∧
      chainIsAtEnd (⟨[[1, 2]], [2]⟩ : ChainCursor Nat) = false ∧
      (⟨[[1, 2]], [1, 2]⟩ : ChainCursor Nat) ≠ ⟨[[1, 2]], [2]⟩ ∧
      zipEqB (⟨[1, 2], [5, 6]⟩ : ZipCursor Nat Nat) ⟨[2], [6]⟩ = true ∧
      zipIsAtEnd (⟨[1, 2], [5, 6]⟩ : ZipCursor Nat Nat) = false := by decide

/-- C2 (amended): `Chain` and `Zip` cursors compare equal exactly when
their at-end statuses AGREE (both at end, or both not at end) — not only
when both are at end; comparison against the end cursor therefore still
detects termination correctly.  `Join` cursors compare equal exactly when
they denote the same position (both sub-cursors equal). -/
theorem cursor_equality_semantics :
    (∀ (α : Type) (c₁ c₂ : ChainCursor α),
        chainEqB c₁ c₂ = true ↔ chainIsAtEnd c₁ = chainIsAtEnd c₂) ∧
      (∀ (α β : Type) (c₁ c₂ : ZipCursor α β),
        zipEqB c₁ c₂ = true ↔ zipIsAtEnd c₁ = zipIsAtEnd c₂) ∧
      (∀ (α : Type) [DecidableEq α] (c₁ c₂ : JoinCursor α),
        joinEqB c₁ c₂ = true ↔ c₁ = c₂) := by
  refine ⟨?_, ?_, ?_⟩
  · intro α c₁ c₂
    simp [chainEqB]
  · intro α β c₁ c₂
    simp [zipEqB]
  · intro α _inst c₁ c₂
    cases c₁
    cases c₂
    simp [joinEqB, JoinCursor.mk.injEq]

/-- C3: forward traversal of `Zip(S1,S2)` yields exactly
`min(|S1|,|S2|)` pairs, pairing the i-th element of each source
(`List.zip`), stopping as soon as either source is exhausted; `size()`
returns the minimum of the sizes and `empty()` is true exactly when at
least one source is empty (equivalently, when the traversal is empty). -/
theorem zip_forward_spec (xs : List α) (ys : List β) :
    zipForward xs ys = List.zip xs ys ∧
      (zipForward xs ys).length = min xs.length ys.length ∧
      zipSize xs ys = (zipForward xs ys).length ∧
      zipEmptyB xs ys = (zipForward xs ys).isEmpty ∧
      (zipEmptyB xs ys = true ↔ xs = [] ∨ ys = []) := by
  have hz : zipForward xs ys = List.zip xs ys := zipTraverse_eq_zip xs ys
  have hl : (zipForward xs ys).length = min xs.length ys.length := by
    rw [hz, List.length_zip]
  refine ⟨hz, hl, ?_, ?_, ?_⟩
  · rw [hl]
    rfl
  · rw [hz]
    cases xs <;> cases ys <;> simp [zipEmptyB]
  · cases xs <;> cases ys <;> simp [zipEmptyB]

/-- C4: forward traversal of `Chain` yields the concatenation
(`List.flatten`) of the inner sequences in order — empty inner sequences
are transparently skipped by `SkipEmptyInnerCollections`, and an empty
outer sequence yields an empty traversal; `empty()` is true exactly when
every inner sequence is empty, and `size()` equals the sum of the inner
sizes (the number of elements traversed). -/
theorem chain_traversal_spec (xss : List (List α)) :
    chainTraversal xss = xss.flatten ∧
      (chainIsEmptyB xss = true ↔ ∀ xs ∈ xss, xs = []) ∧
      chainSize xss = (xss.map List.length).sum ∧
      chainSize xss = (chainTraversal xss).length := by
  have ht : chainTraversal xss = xss.flatten := chainBegin_traverse_flatten xss
  have hs : chainSize xss = (xss.map List.length).sum := by
    simpa [chainSize] using chain_foldl_length xss 0
  refine ⟨ht, chainIsEmptyB_iff xss, hs, ?_⟩
  rw [ht, hs, List.length_flatten]

/-- C5: traversal of `Filter(S,pred)` yields exactly the elements of `S`
satisfying `pred`, in their original relative order (`List.filter`); a
freshly constructed or just-advanced cursor (both run
`SkipFilteredEntries`) that is not at end denotes an element satisfying
`pred`; `empty()` is true exactly when no element satisfies `pred`; and
`size()` counts the elements of `S` satisfying `pred`. -/
theorem filter_traversal_spec (p : α → Bool) (xs : List α) :
    filterTraversal p xs = xs.filter p ∧
      Option.all p (skipFilteredEntries p xs).head? = true ∧
      (filterIsEmptyB p xs = true ↔ ∀ x ∈ xs, p x = false) ∧
      filterSize p xs = (xs.filter p).length :=
  ⟨filterTraversal_eq_filter p xs, skipFilteredEntries_head p xs,
    filterIsEmptyB_iff p xs, by rw [filterSize, filterTraversal_eq_filter]⟩

/-- C6: forward traversal of `Join(S1,S2)` yields the concatenation of
S1's elements followed by S2's elements (in particular `Join([],[])` is
empty and `Join([],[x])`, `Join([x],[])` both yield `[x]`); reverse
traversal (`rbegin`/`rend`) visits S2's elements back-to-front followed by
S1's elements back-to-front. -/
theorem join_traversal_spec (xs ys : List α) :
    joinForward xs ys = xs ++ ys ∧
      joinBackward xs ys = ys.reverse ++ xs.reverse :=
  ⟨joinTraverse_append xs ys, joinTraverse_append ys.reverse xs.reverse⟩

/-- C7: forward traversal of `Enumerate(S)` yields (position, value) pairs
whose values are the elements of `S` in order and whose positions are
`0, 1, …, |S|-1` in traversal order; reverse traversal yields the same
pairs in the opposite order, i.e. positions `|S|-1, …, 1, 0` (starting at
`count-1` and decreasing) paired with the elements of `S` back-to-front. -/
theorem enumerate_traversal_spec (xs : List α) :
    (enumForward xs).map Prod.snd = xs ∧
      (enumForward xs).map Prod.fst = (List.range xs.length).map (fun k : Nat => (k : Int)) ∧
      enumBackward xs = (enumForward xs).reverse := by
  refine ⟨enumTraverse_map_snd 1 xs 0, ?_, ?_⟩
  · rw [enumForward, enumTraverse_one_map_fst xs 0]
    refine List.map_congr_left ?_
    intro k _
    ring
  · have h := enumTraverse_neg_one_reverse xs.reverse ((xs.length : Int) - 1)
    rw [List.reverse_reverse, List.length_reverse] at h
    have h0 : (xs.length : Int) - 1 - (xs.length : Int) + 1 = 0 := by ring
    rw [h0] at h
    unfold enumBackward enumForward
    rw [← h, List.reverse_reverse]

/-- C8: the `SkipEmptyInnerCollections` loop always terminates on a
well-formed (finite) outer sequence: each iteration consumes exactly one
outer element — the iteration count equals the decrease in remaining outer
length and is therefore bounded by the remaining outer length — and the
loop exits only at the outer end or at a non-exhausted inner iterator.
Cursor construction (`chainBeginCursor`) and each advance (`chainNext`)
perform exactly one such loop, so both complete in finitely many steps. -/
theorem chain_skip_loop_terminates (c : ChainCursor α) :
    skipEmptyInnerSteps c + (skipEmptyInner c).outer.length = c.outer.length ∧
      skipEmptyInnerSteps c ≤ c.outer.length ∧
      (chainIsAtEnd (skipEmptyInner c) = true ∨ (skipEmptyInner c).inner ≠ []) := by
  obtain ⟨outer, inner⟩ := c
  have h := skipEmptyInner_steps_outer outer inner
  have h2 : skipEmptyInnerSteps ⟨outer, inner⟩ ≤ outer.length := by omega
  exact ⟨h, h2, skipEmptyInner_exit outer inner⟩

/-- C9: `Reversed` swaps the forward and backward traversal entry points
of the wrapped view, so `Reverse(Reverse(S))` has the same forward
traversal order as `S` itself — both for an arbitrary wrapped view and for
a plain bidirectional collection, for which one application of `Reversed`
traverses back-to-front. -/
theorem reverse_reverse_traversal (v : View α) (xs : List α) :
    (reversedView (reversedView v)).fwd = v.fwd ∧
      (reversedView (reversedView (collectionView xs))).fwd = xs ∧
      (reversedView (collectionView xs)).fwd = xs.reverse :=
  ⟨rfl, rfl, rfl⟩

/-- C10: dereferencing a non-end `Map` cursor invokes the mapping function
exactly once on the current source element and returns the result by
value; the result is not cached, so two dereferences without an advance
invoke the function twice (recomputing the value each time), while an
advance without a dereference invokes it zero times. -/
theorem map_deref_invokes_fresh (g : α → β) (x : α) (rest : List α) (n : Nat) :
    mapDeref (countingMap g) n ⟨x :: rest⟩ = some (n + 1, g x) ∧
      mapRun (countingMap g) [MapOp.deref, MapOp.deref] n ⟨x :: rest⟩ = (n + 2, [g x, g x]) ∧
      mapRun (countingMap g) [MapOp.advance] n ⟨x :: rest⟩ = (n, []) :=
  ⟨rfl, rfl, rfl⟩

end IteratorSpec
